import Mathlib

/-!
Verification of the sandbox-profile generator library (`src/lib.rs` of
`secure_notebook`).

The library builds macOS sandbox-profile text from a `Permissions` value:
path validation (`validate_paths`), per-category rule emission
(`generate_file_permissions`, `generate_network_permissions`,
`generate_run_permissions`), template assembly (`generate_profile`) and
minification (`minify_profile`).

Modelling conventions:
* Rust `String` / `&str` are Lean `String`; `PathBuf` values are their
  string forms (in the source every path is converted with
  `to_string_lossy().to_string()` / shown with `.display()`, both modelled
  as the identity on the string).
* The filesystem is abstracted as `fs : String → Bool` giving the result
  of `Path::exists` for each path.
* `std::io::Error` / `anyhow::Error` are modelled as their message string,
  carried by `Except String`.
* A Rust method `fn f(&mut self, ..) -> Result<()>` becomes a function
  returning the pair `(Except String Unit) × Permissions`: the returned
  result together with the final state of `self` (on early return via `?`
  the state is the unchanged receiver).
* `minify_profile` works on `String.data` (`List Char`), with `str::lines`
  modelled explicitly (`splitNl`, `rustLines`), `str::trim` as dropping
  leading whitespace then trailing whitespace (`trimChars`), and
  `line[..line.find(';')]` as `takeWhile (· ≠ ';')`.
-/

namespace SecureNotebook

/-- The `Permissions` struct of `src/lib.rs` (lines 12–21): allow/deny path
lists for read and write, the network flag, and allow/deny program lists.
The commented-out `deny_net` field of the source is absent, as in the source. -/
structure Permissions where
  allow_read : List String := []
  deny_read : List String := []
  allow_write : List String := []
  deny_write : List String := []
  allow_net : Bool := false
  allow_run : List String := []
  deny_run : List String := []
deriving Repr, DecidableEq

/-- `Permissions::new` (lines 25–27): `Self::default()`, i.e. empty lists and
`allow_net = false`. -/
def Permissions.new : Permissions := {}

/-- `validate_paths` (lines 69–83): map each path through an existence check,
collecting into `Result<Vec<String>>`.  Rust's `collect` over an iterator of
`Result`s is fail-fast: the first `Err` is returned and later elements are
never produced, which the recursion mirrors.  The error message is
`format!("Path does not exist: {}", path.display())`. -/
def validate_paths (fs : String → Bool) : List String → Except String (List String)
  | [] => Except.ok []
  | path :: rest =>
    if fs path then
      match validate_paths fs rest with
      | Except.ok v => Except.ok (path :: v)
      | Except.error e => Except.error e
    else
      Except.error ("Path does not exist: " ++ path)

/-- `Permissions::allow_read` (lines 30–33):
`self.allow_read = validate_paths(paths)?`.  Named `set_allow_read` because in
Lean the method name would collide with the field projection `allow_read`. -/
def Permissions.set_allow_read (fs : String → Bool) (self : Permissions)
    (paths : List String) : Except String Unit × Permissions :=
  match validate_paths fs paths with
  | Except.ok v => (Except.ok (), { self with allow_read := v })
  | Except.error e => (Except.error e, self)

/-- `Permissions::deny_read` (lines 36–39). -/
def Permissions.set_deny_read (fs : String → Bool) (self : Permissions)
    (paths : List String) : Except String Unit × Permissions :=
  match validate_paths fs paths with
  | Except.ok v => (Except.ok (), { self with deny_read := v })
  | Except.error e => (Except.error e, self)

/-- `Permissions::allow_write` (lines 42–45). -/
def Permissions.set_allow_write (fs : String → Bool) (self : Permissions)
    (paths : List String) : Except String Unit × Permissions :=
  match validate_paths fs paths with
  | Except.ok v => (Except.ok (), { self with allow_write := v })
  | Except.error e => (Except.error e, self)

/-- `Permissions::deny_write` (lines 48–51). -/
def Permissions.set_deny_write (fs : String → Bool) (self : Permissions)
    (paths : List String) : Except String Unit × Permissions :=
  match validate_paths fs paths with
  | Except.ok v => (Except.ok (), { self with deny_write := v })
  | Except.error e => (Except.error e, self)

/-- `Permissions::allow_net` (lines 54–56): sets the flag to `true`. -/
def Permissions.set_allow_net (self : Permissions) : Permissions :=
  { self with allow_net := true }

/-- `Permissions::allow_run` (lines 59–61): stores the programs verbatim. -/
def Permissions.set_allow_run (self : Permissions) (programs : List String) :
    Permissions :=
  { self with allow_run := programs }

/-- `Permissions::deny_run` (lines 64–66): stores the programs verbatim. -/
def Permissions.set_deny_run (self : Permissions) (programs : List String) :
    Permissions :=
  { self with deny_run := programs }

/-- `generate_file_permissions` (lines 119–139): push one
`(deny <access_type> (subpath "<path>"))` line per deny path, then, if the
allow list is non-empty, push `(allow <access_type>)`, one indented
`(subpath "<path>")` line per allow path, and a closing `)` line.
Each `push_str` of the source is an append onto the accumulator. -/
def generate_file_permissions (access_type : String)
    (allow_paths deny_paths : List String) : String :=
  let stmt := deny_paths.foldl
    (fun s path => s ++ ("(deny " ++ access_type ++ " (subpath \"" ++ path ++ "\"))\n")) ""
  if allow_paths.isEmpty then
    stmt
  else
    let s := stmt ++ ("(allow " ++ access_type ++ ")\n")
    let s := allow_paths.foldl
      (fun s path => s ++ ("    (subpath \"" ++ path ++ "\")\n")) s
    s ++ ")\n"

/-- `generate_network_permissions` (lines 142–153): a single
`(allow network*)` line when the flag is set, otherwise nothing. -/
def generate_network_permissions (allow_net : Bool) : String :=
  let stmt := ""
  if allow_net then stmt ++ "(allow network*)\n" else stmt

/-- `generate_run_permissions` (lines 156–172): push one
`(deny process-exec (literal "<prog>"))` line per deny program, then, if the
allow list is non-empty, push the header `(allow process-exec` (note: no
closing parenthesis on this line in the source), one indented
`(literal "<prog>")` line per allow program, and a closing `)` line. -/
def generate_run_permissions (allow_progs deny_progs : List String) : String :=
  let stmt := deny_progs.foldl
    (fun s prog => s ++ ("(deny process-exec (literal \"" ++ prog ++ "\"))\n")) ""
  if allow_progs.isEmpty then
    stmt
  else
    let s := stmt ++ "(allow process-exec\n"
    let s := allow_progs.foldl
      (fun s prog => s ++ ("    (literal \"" ++ prog ++ "\")\n")) s
    s ++ ")\n"

/-- `generate_profile` (lines 86–116): start from the template and append, in
order, file-read rules, file-write rules, network rule, process-exec rules;
return `Ok(profile)`. -/
def generate_profile (template : String) (permissions : Permissions) :
    Except String String :=
  let profile := template
  let profile := profile ++ generate_file_permissions "file-read*"
    permissions.allow_read permissions.deny_read
  let profile := profile ++ generate_file_permissions "file-write*"
    permissions.allow_write permissions.deny_write
  let profile := profile ++ generate_network_permissions permissions.allow_net
  let profile := profile ++ generate_run_permissions
    permissions.allow_run permissions.deny_run
  Except.ok profile

/-- Split a character list at every `'\n'`, keeping empty pieces (the plain
`split('\n')` underlying Rust's `str::lines`). -/
def splitNl : List Char → List (List Char)
  | [] => [[]]
  | c :: cs =>
    if c = '\n' then
      [] :: splitNl cs
    else
      match splitNl cs with
      | [] => [[c]]
      | l :: ls => (c :: l) :: ls

/-- Remove one trailing `'\r'` if present: the `strip_suffix("\r")` step of
Rust's `str::lines`. -/
def stripCr (l : List Char) : List Char :=
  match l.reverse with
  | '\r' :: rest => rest.reverse
  | _ => l

/-- Rust's `str::lines`: split at `'\n'`, drop the final empty piece (present
exactly when the string is empty or ends with `'\n'`), and strip one trailing
`'\r'` from each line. -/
def rustLines (cs : List Char) : List (List Char) :=
  let ps := splitNl cs
  let ps := if ps.getLast? = some [] then ps.dropLast else ps
  ps.map stripCr

/-- `&line[..index]` for `index = line.find(';')` (lines 180–184): the line
up to, and not including, its first semicolon; the whole line when it has
no semicolon. -/
def stripComment (l : List Char) : List Char :=
  l.takeWhile (fun c => c ≠ ';')

/-- Remove trailing characters satisfying `Char.isWhitespace` (right half of
Rust's `str::trim`). -/
def rtrim : List Char → List Char
  | [] => []
  | c :: cs =>
    if rtrim cs = [] ∧ c.isWhitespace then [] else c :: rtrim cs

/-- Rust's `str::trim` (line 185): drop leading and trailing whitespace. -/
def trimChars (l : List Char) : List Char :=
  rtrim (l.dropWhile Char.isWhitespace)

/-- The body of the `filter_map` closure of `minify_profile` (lines 178–191):
truncate at the first `';'`, trim, drop the line if it is then empty. -/
def minifyLine (l : List Char) : Option (List Char) :=
  let t := trimChars (stripComment l)
  if t = [] then none else some t

/-- `Vec::join(" ")` (line 193) on character lists: interpose a single space
between consecutive pieces. -/
def joinSp : List (List Char) → List Char
  | [] => []
  | [l] => l
  | l :: ls => l ++ ' ' :: joinSp ls

/-- `minify_profile` (lines 175–194) on the character-list representation. -/
def minifyChars (cs : List Char) : List Char :=
  joinSp ((rustLines cs).filterMap minifyLine)

/-- `minify_profile` (lines 175–194): split into lines, strip comments, trim,
drop empty lines, join the survivors with single spaces. -/
def minify_profile (profile : String) : String :=
  String.mk (minifyChars profile.data)

/-- Concatenation of a list of strings, used to state the emission shape of
the generators declaratively. -/
def strConcat (l : List String) : String :=
  l.foldr (fun a b => a ++ b) ""

/-- Textual substitution of every occurrence of `(subpath ` by `(literal `,
the transformation the spec describes as replacing each subpath clause by a
literal-match clause. -/
def replaceSubpath : List Char → List Char
  | '(' :: 's' :: 'u' :: 'b' :: 'p' :: 'a' :: 't' :: 'h' :: ' ' :: rest =>
      '(' :: 'l' :: 'i' :: 't' :: 'e' :: 'r' :: 'a' :: 'l' :: ' ' :: replaceSubpath rest
  | c :: rest => c :: replaceSubpath rest
  | [] => []

theorem strConcat_nil : strConcat [] = "" := rfl

theorem strConcat_cons (a : String) (l : List String) :
    strConcat (a :: l) = a ++ strConcat l := rfl

theorem foldl_append_eq (f : α → String) (xs : List α) (a : String) :
    xs.foldl (fun s x => s ++ f x) a = a ++ strConcat (xs.map f) := by
  induction xs generalizing a with
  | nil => simp [strConcat, String.append_empty]
  | cons x xs ih => simp [strConcat, ih, String.append_assoc]

/-- C1: `generate_file_permissions` emits one deny-by-subpath line per deny
path in order, followed — exactly when the allow list is non-empty — by an
allow block: the allow-by-category header line, one indented subpath line per
allow path in order, and a closing `)` line; an empty allow list contributes
no text at all, so deny lines always precede the allow block. -/
theorem generate_file_permissions_spec (access_type : String)
    (allow_paths deny_paths : List String) :
    generate_file_permissions access_type allow_paths deny_paths =
      strConcat (deny_paths.map
        (fun path => "(deny " ++ access_type ++ " (subpath \"" ++ path ++ "\"))\n"))
      ++ (if allow_paths = [] then "" else
          "(allow " ++ access_type ++ ")\n"
          ++ strConcat (allow_paths.map
            (fun path => "    (subpath \"" ++ path ++ "\")\n"))
          ++ ")\n") := by
  unfold generate_file_permissions
  cases allow_paths with
  | nil => simp [foldl_append_eq, String.empty_append, String.append_empty]
  | cons p ps =>
    simp [foldl_append_eq, strConcat_cons, String.empty_append, String.append_assoc]

/-- C8 (amended): `generate_run_permissions` emits one
`(deny process-exec (literal "<prog>"))` line per deny program in order,
followed — exactly when the allow list is non-empty — by the header line
`(allow process-exec` (with no closing parenthesis, unlike the file-category
header), one indented `(literal "<prog>")` line per allow program in order,
and a closing `)` line. -/
theorem generate_run_permissions_spec (allow_progs deny_progs : List String) :
    generate_run_permissions allow_progs deny_progs =
      strConcat (deny_progs.map
        (fun prog => "(deny process-exec (literal \"" ++ prog ++ "\"))\n"))
      ++ (if allow_progs = [] then "" else
          "(allow process-exec\n"
          ++ strConcat (allow_progs.map
            (fun prog => "    (literal \"" ++ prog ++ "\")\n"))
          ++ ")\n") := by
  unfold generate_run_permissions
  cases allow_progs with
  | nil => simp [foldl_append_eq, String.empty_append, String.append_empty]
  | cons p ps =>
    simp [foldl_append_eq, strConcat_cons, String.empty_append, String.append_assoc]

/-- C8 (counterexample): run emission is not literally file emission for
`process-exec` with each subpath clause rewritten to a literal clause — on
allow list `["a"]` and empty deny list the file-category allow header closes
its parenthesis (`(allow process-exec)`) while the run header does not
(`(allow process-exec`). -/
theorem run_subst_counterexample :
    generate_run_permissions ["a"] [] ≠
      String.mk (replaceSubpath
        (generate_file_permissions "process-exec" ["a"] []).data) := by
  decide

/-- C2: `generate_profile` returns the template followed by, in this fixed
order, the file-read fragment, the file-write fragment, the network fragment
and the process-exec fragment; the network fragment is exactly
`(allow network*)\n` when the flag is set and empty otherwise. -/
theorem generate_profile_order_spec (template : String) (permissions : Permissions) :
    generate_profile template permissions =
      Except.ok (template
        ++ generate_file_permissions "file-read*"
            permissions.allow_read permissions.deny_read
        ++ generate_file_permissions "file-write*"
            permissions.allow_write permissions.deny_write
        ++ generate_network_permissions permissions.allow_net
        ++ generate_run_permissions permissions.allow_run permissions.deny_run)
    ∧ generate_network_permissions true = "(allow network*)\n"
    ∧ generate_network_permissions false = "" :=
  ⟨rfl, rfl, rfl⟩

/-- C3: on a `Permissions` value whose four path lists and two program lists
are empty and whose network flag is off, `generate_profile` returns exactly
the input template. -/
theorem generate_profile_empty_template (template : String) (p : Permissions)
    (h1 : p.allow_read = []) (h2 : p.deny_read = [])
    (h3 : p.allow_write = []) (h4 : p.deny_write = [])
    (h5 : p.allow_net = false)
    (h6 : p.allow_run = []) (h7 : p.deny_run = []) :
    generate_profile template p = Except.ok template := by
  simp [generate_profile, h1, h2, h3, h4, h5, h6, h7,
    generate_file_permissions, generate_run_permissions,
    generate_network_permissions, String.append_empty]

/-- Witness for C3: the empty `Permissions::new()` value and a concrete
template. -/
theorem generate_profile_empty_template_witness :
    generate_profile "(version 1)\n(deny default)\n" Permissions.new =
      Except.ok "(version 1)\n(deny default)\n" :=
  generate_profile_empty_template "(version 1)\n(deny default)\n" Permissions.new
    rfl rfl rfl rfl rfl rfl rfl

/-- C10: `generate_profile` never fails: it returns `Ok` on every template
and every `Permissions` value. -/
theorem generate_profile_never_fails (template : String) (permissions : Permissions) :
    ∃ s, generate_profile template permissions = Except.ok s :=
  ⟨_, rfl⟩

theorem validate_paths_ok (fs : String → Bool) (paths : List String)
    (h : ∀ q ∈ paths, fs q = true) :
    validate_paths fs paths = Except.ok paths := by
  induction paths with
  | nil => rfl
  | cons p rest ih =>
    have hp : fs p = true := h p (List.mem_cons_self p rest)
    have hr := ih (fun q hq => h q (List.mem_cons_of_mem p hq))
    simp [validate_paths, hp, hr]

theorem validate_paths_error_first (fs : String → Bool) (pre post : List String)
    (q : String) (hpre : ∀ x ∈ pre, fs x = true) (hq : fs q = false) :
    validate_paths fs (pre ++ q :: post) =
      Except.error ("Path does not exist: " ++ q) := by
  induction pre with
  | nil => simp [validate_paths, hq]
  | cons p rest ih =>
    have hp : fs p = true := hpre p (List.mem_cons_self p rest)
    have hr := ih (fun x hx => hpre x (List.mem_cons_of_mem p hx))
    simp [validate_paths, hp, hr]

theorem validate_paths_ok_iff (fs : String → Bool) (paths : List String) :
    (∃ v, validate_paths fs paths = Except.ok v) ↔ ∀ q ∈ paths, fs q = true := by
  induction paths with
  | nil => simp [validate_paths]
  | cons p rest ih =>
    by_cases hp : fs p = true
    · cases hrest : validate_paths fs rest with
      | ok w =>
        simp only [validate_paths, hp, if_true, hrest, List.forall_mem_cons]
        constructor
        · intro _
          exact ⟨trivial, ih.mp ⟨w, hrest⟩⟩
        · intro _
          exact ⟨p :: w, rfl⟩
      | error e =>
        simp only [validate_paths, hp, if_true, hrest, List.forall_mem_cons]
        constructor
        · rintro ⟨v, hv⟩
          cases hv
        · rintro ⟨-, hall⟩
          rcases ih.mpr hall with ⟨w, hw⟩
          rw [hw] at hrest
          cases hrest
    · simp only [Bool.not_eq_true] at hp
      simp [validate_paths, hp, List.forall_mem_cons]

theorem validate_paths_error_of_mem (fs : String → Bool) (paths : List String)
    (h : ∃ q ∈ paths, fs q = false) :
    ∃ e, validate_paths fs paths = Except.error e := by
  cases hv : validate_paths fs paths with
  | ok v =>
    rcases h with ⟨q, hq, hfq⟩
    have := (validate_paths_ok_iff fs paths).mp ⟨v, hv⟩ q hq
    rw [hfq] at this
    cases this
  | error e => exact ⟨e, rfl⟩

/-- C5: `validate_paths` succeeds exactly when every path exists; on success
it returns the paths (their string forms) in the supplied order; on failure it
returns the error message naming the first path that does not exist, and the
result does not depend on anything after that first failing path. -/
theorem validate_paths_spec (fs : String → Bool) :
    (∀ paths : List String,
      (∃ v, validate_paths fs paths = Except.ok v) ↔ ∀ q ∈ paths, fs q = true)
    ∧ (∀ paths : List String, (∀ q ∈ paths, fs q = true) →
        validate_paths fs paths = Except.ok paths)
    ∧ (∀ pre post : List String, ∀ q : String,
        (∀ x ∈ pre, fs x = true) → fs q = false →
        validate_paths fs (pre ++ q :: post) =
          Except.error ("Path does not exist: " ++ q)) :=
  ⟨validate_paths_ok_iff fs, validate_paths_ok fs, validate_paths_error_first fs⟩

/-- Witness for C5: on a filesystem where only `/a` exists, validating
`["/a", "/b", "/c"]` fails with the message naming `/b`. -/
theorem validate_paths_spec_witness :
    validate_paths (fun s => s == "/a") ["/a", "/b", "/c"] =
      Except.error ("Path does not exist: " ++ "/b") :=
  (validate_paths_spec (fun s => s == "/a")).2.2 ["/a"] ["/c"] "/b"
    (by decide) (by decide)

/-- C4: when some supplied path does not exist, each of the four path setters
returns an error and leaves the `Permissions` value entirely unchanged. -/
theorem setters_error_leave_unchanged (fs : String → Bool) (p : Permissions)
    (paths : List String) (h : ∃ q ∈ paths, fs q = false) :
    (∃ e, Permissions.set_allow_read fs p paths = (Except.error e, p))
    ∧ (∃ e, Permissions.set_deny_read fs p paths = (Except.error e, p))
    ∧ (∃ e, Permissions.set_allow_write fs p paths = (Except.error e, p))
    ∧ (∃ e, Permissions.set_deny_write fs p paths = (Except.error e, p)) := by
  rcases validate_paths_error_of_mem fs paths h with ⟨e, he⟩
  refine ⟨⟨e, ?_⟩, ⟨e, ?_⟩, ⟨e, ?_⟩, ⟨e, ?_⟩⟩ <;>
    simp [Permissions.set_allow_read, Permissions.set_deny_read,
      Permissions.set_allow_write, Permissions.set_deny_write, he]

/-- Witness for C4: a filesystem on which no path exists rejects `["/nope"]`
from every setter, leaving `Permissions::new()` unchanged. -/
theorem setters_error_leave_unchanged_witness :
    (∃ e, Permissions.set_allow_read (fun _ => false) Permissions.new ["/nope"] =
        (Except.error e, Permissions.new))
    ∧ (∃ e, Permissions.set_deny_read (fun _ => false) Permissions.new ["/nope"] =
        (Except.error e, Permissions.new))
    ∧ (∃ e, Permissions.set_allow_write (fun _ => false) Permissions.new ["/nope"] =
        (Except.error e, Permissions.new))
    ∧ (∃ e, Permissions.set_deny_write (fun _ => false) Permissions.new ["/nope"] =
        (Except.error e, Permissions.new)) :=
  setters_error_leave_unchanged (fun _ => false) Permissions.new ["/nope"]
    (by decide)

/-- C9: when validation succeeds, each path setter returns `Ok` and replaces
exactly its own category's list, leaving every other field of the
`Permissions` value unchanged. -/
theorem setters_success_frame (fs : String → Bool) (p : Permissions)
    (paths : List String) (h : ∀ q ∈ paths, fs q = true) :
    Permissions.set_allow_read fs p paths =
      (Except.ok (), { p with allow_read := paths })
    ∧ Permissions.set_deny_read fs p paths =
      (Except.ok (), { p with deny_read := paths })
    ∧ Permissions.set_allow_write fs p paths =
      (Except.ok (), { p with allow_write := paths })
    ∧ Permissions.set_deny_write fs p paths =
      (Except.ok (), { p with deny_write := paths }) := by
  have hv := validate_paths_ok fs paths h
  refine ⟨?_, ?_, ?_, ?_⟩ <;>
    simp [Permissions.set_allow_read, Permissions.set_deny_read,
      Permissions.set_allow_write, Permissions.set_deny_write, hv]

/-- Witness for C9: on a filesystem where every path exists, setting
`["/a"]` succeeds and touches only the targeted field. -/
theorem setters_success_frame_witness :
    Permissions.set_allow_read (fun _ => true) Permissions.new ["/a"] =
      (Except.ok (), { Permissions.new with allow_read := ["/a"] })
    ∧ Permissions.set_deny_read (fun _ => true) Permissions.new ["/a"] =
      (Except.ok (), { Permissions.new with deny_read := ["/a"] })
    ∧ Permissions.set_allow_write (fun _ => true) Permissions.new ["/a"] =
      (Except.ok (), { Permissions.new with allow_write := ["/a"] })
    ∧ Permissions.set_deny_write (fun _ => true) Permissions.new ["/a"] =
      (Except.ok (), { Permissions.new with deny_write := ["/a"] }) :=
  setters_success_frame (fun _ => true) Permissions.new ["/a"] (by decide)

theorem splitNl_ne_nil (cs : List Char) : splitNl cs ≠ [] := by
  cases cs with
  | nil => simp [splitNl]
  | cons c cs =>
    by_cases hc : c = '\n'
    · simp [splitNl, hc]
    · cases h : splitNl cs with
      | nil => simp [splitNl, hc, h]
      | cons l ls => simp [splitNl, hc, h]

theorem no_nl_of_mem_splitNl {cs l : List Char} (hl : l ∈ splitNl cs) :
    '\n' ∉ l := by
  induction cs generalizing l with
  | nil =>
    simp [splitNl] at hl
    simp [hl]
  | cons c cs ih =>
    by_cases hc : c = '\n'
    · simp only [splitNl, hc, if_pos rfl] at hl
      rcases List.mem_cons.mp hl with hl | hl
      · simp [hl]
      · exact ih hl
    · cases h : splitNl cs with
      | nil => exact absurd h (splitNl_ne_nil cs)
      | cons m ms =>
        simp only [splitNl, hc, if_false, h] at hl
        rcases List.mem_cons.mp hl with hl | hl
        · subst hl
          intro hmem
          rcases List.mem_cons.mp hmem with h1 | h1
          · exact hc h1.symm
          · exact ih (h ▸ List.mem_cons_self m ms) h1
        · exact ih (by rw [h]; exact List.mem_cons_of_mem m hl)

theorem splitNl_no_nl {cs : List Char} (h : '\n' ∉ cs) : splitNl cs = [cs] := by
  induction cs with
  | nil => rfl
  | cons c cs ih =>
    have hc : ¬ c = '\n' := fun hc => h (by simp [hc])
    have h' : '\n' ∉ cs := fun hm => h (List.mem_cons_of_mem c hm)
    simp [splitNl, hc, ih h']

theorem mem_stripCr {l : List Char} {x : Char} (h : x ∈ stripCr l) : x ∈ l := by
  unfold stripCr at h
  split at h
  · rename_i rest heq
    have hx : x ∈ rest := List.mem_reverse.mp h
    have hx' : x ∈ l.reverse := by
      rw [heq]
      exact List.mem_cons_of_mem _ hx
    exact List.mem_reverse.mp hx'
  · exact h

theorem stripCr_eq_self {l : List Char} (h : ∀ rest, l.reverse ≠ '\r' :: rest) :
    stripCr l = l := by
  unfold stripCr
  split
  · rename_i rest heq
    exact absurd heq (h rest)
  · rfl

theorem no_nl_of_mem_rustLines {cs l : List Char} (hl : l ∈ rustLines cs) :
    '\n' ∉ l := by
  unfold rustLines at hl
  rcases List.mem_map.mp hl with ⟨m, hm, rfl⟩
  intro hx
  have hx' : '\n' ∈ m := mem_stripCr hx
  have hm' : m ∈ splitNl cs := by
    by_cases hg : (splitNl cs).getLast? = some []
    · rw [if_pos hg] at hm
      exact (List.dropLast_sublist (splitNl cs)).subset hm
    · rw [if_neg hg] at hm
      exact hm
  exact no_nl_of_mem_splitNl hm' hx'

theorem takeWhile_eq_self_of_all {p : Char → Bool} {l : List Char}
    (h : ∀ c ∈ l, p c = true) : l.takeWhile p = l := by
  induction l with
  | nil => rfl
  | cons c cs ih =>
    rw [List.takeWhile_cons, h c (List.mem_cons_self c cs)]
    simp [ih (fun x hx => h x (List.mem_cons_of_mem c hx))]

theorem mem_rtrim {l : List Char} {x : Char} (h : x ∈ rtrim l) : x ∈ l := by
  induction l with
  | nil => simp [rtrim] at h
  | cons c cs ih =>
    rw [rtrim] at h
    split at h
    · exact absurd h (List.not_mem_nil x)
    · rcases List.mem_cons.mp h with h | h
      · simp [h]
      · exact List.mem_cons_of_mem c (ih h)

theorem mem_trimChars {l : List Char} {x : Char} (h : x ∈ trimChars l) :
    x ∈ l := by
  unfold trimChars at h
  exact (List.dropWhile_sublist Char.isWhitespace).subset (mem_rtrim h)

theorem dropWhile_head_false {p : Char → Bool} {l : List Char} {c : Char}
    {cs : List Char} (h : l.dropWhile p = c :: cs) : p c = false := by
  induction l with
  | nil => cases h
  | cons a l ih =>
    rw [List.dropWhile_cons] at h
    split at h
    · exact ih h
    · rename_i hpa
      cases h
      simpa using hpa

theorem rtrim_cons_of_ne {c : Char} {cs : List Char}
    (h : rtrim (c :: cs) ≠ []) : rtrim (c :: cs) = c :: rtrim cs := by
  by_cases hcond : rtrim cs = [] ∧ c.isWhitespace = true
  · rw [rtrim, if_pos hcond] at h
    exact absurd rfl h
  · rw [rtrim, if_neg hcond]

theorem rtrim_reverse_head {m : List Char} (h : rtrim m ≠ []) :
    ∃ c cs, (rtrim m).reverse = c :: cs ∧ c.isWhitespace = false := by
  induction m with
  | nil => exact absurd rfl h
  | cons a m ih =>
    have hr := rtrim_cons_of_ne h
    by_cases hm : rtrim m = []
    · have ha : a.isWhitespace = false := by
        cases hws : a.isWhitespace
        · rfl
        · have h0 : rtrim (a :: m) = [] := by rw [rtrim, if_pos ⟨hm, hws⟩]
          exact absurd h0 h
      refine ⟨a, [], ?_, ha⟩
      rw [hr, hm]
      rfl
    · rcases ih hm with ⟨c, cs, hrev, hc⟩
      refine ⟨c, cs ++ [a], ?_, hc⟩
      rw [hr]
      simp [List.reverse_cons, hrev]

theorem rtrim_eq_self {m : List Char} {d : Char} {ds : List Char}
    (hrev : m.reverse = d :: ds) (hd : d.isWhitespace = false) :
    rtrim m = m := by
  induction m generalizing d ds with
  | nil => cases hrev
  | cons c rest ih =>
    cases hr : rest.reverse with
    | nil =>
      have hrest : rest = [] := by
        have := congrArg List.reverse hr
        simpa using this
      subst hrest
      have hc : c = d := by
        have := congrArg List.head? hrev
        simpa using this
      subst hc
      rw [rtrim, if_neg]
      · simp [rtrim]
      · rintro ⟨-, hws⟩
        rw [hd] at hws
        cases hws
    | cons x xs =>
      have hrest : rest ≠ [] := by
        intro h0
        rw [h0] at hr
        cases hr
      rw [List.reverse_cons, hr] at hrev
      have hx : x = d := by
        have := congrArg List.head? hrev
        simpa using this
      subst hx
      have hrr : rtrim rest = rest := ih hr hd
      rw [rtrim, if_neg]
      · rw [hrr]
      · rintro ⟨h0, -⟩
        rw [hrr] at h0
        exact hrest h0

theorem joinSp_head {ps : List (List Char)} (hne : ps ≠ [])
    (hall : ∀ t ∈ ps, ∃ c l, t = c :: l ∧ c.isWhitespace = false) :
    ∃ c l, joinSp ps = c :: l ∧ c.isWhitespace = false := by
  induction ps with
  | nil => exact absurd rfl hne
  | cons t ts ih =>
    rcases hall t (List.mem_cons_self t ts) with ⟨c, l, rfl, hc⟩
    cases ts with
    | nil => exact ⟨c, l, rfl, hc⟩
    | cons u us =>
      refine ⟨c, l ++ ' ' :: joinSp (u :: us), ?_, hc⟩
      simp [joinSp]

theorem joinSp_reverse_head {ps : List (List Char)} (hne : ps ≠ [])
    (hall : ∀ t ∈ ps, ∃ c l, t.reverse = c :: l ∧ c.isWhitespace = false) :
    ∃ c l, (joinSp ps).reverse = c :: l ∧ c.isWhitespace = false := by
  induction ps with
  | nil => exact absurd rfl hne
  | cons t ts ih =>
    cases ts with
    | nil =>
      rcases hall t (List.mem_cons_self t []) with ⟨c, l, hrev, hc⟩
      exact ⟨c, l, by simpa [joinSp] using hrev, hc⟩
    | cons u us =>
      have hih := ih (by simp) (fun x hx => hall x (List.mem_cons_of_mem t hx))
      rcases hih with ⟨c, l, hrev, hc⟩
      refine ⟨c, l ++ ' ' :: t.reverse, ?_, hc⟩
      simp only [joinSp, List.reverse_append, List.reverse_cons]
      simp [hrev]

theorem mem_joinSp {ps : List (List Char)} {x : Char} (h : x ∈ joinSp ps) :
    x = ' ' ∨ ∃ t ∈ ps, x ∈ t := by
  induction ps with
  | nil => simp [joinSp] at h
  | cons t ts ih =>
    cases ts with
    | nil =>
      right
      exact ⟨t, List.mem_cons_self t [], by simpa [joinSp] using h⟩
    | cons u us =>
      rw [show joinSp (t :: u :: us) = t ++ ' ' :: joinSp (u :: us) from rfl] at h
      rcases List.mem_append.mp h with h | h
      · exact Or.inr ⟨t, List.mem_cons_self _ _, h⟩
      · rcases List.mem_cons.mp h with h | h
        · exact Or.inl h
        · rcases ih h with h | ⟨w, hw, hxw⟩
          · exact Or.inl h
          · exact Or.inr ⟨w, List.mem_cons_of_mem t hw, hxw⟩

theorem minifyLine_props {cs t : List Char}
    (ht : t ∈ (rustLines cs).filterMap minifyLine) :
    t ≠ [] ∧ '\n' ∉ t ∧ (∀ x ∈ t, x ≠ ';') ∧
    (∃ c l, t = c :: l ∧ c.isWhitespace = false) ∧
    (∃ c l, t.reverse = c :: l ∧ c.isWhitespace = false) := by
  rcases List.mem_filterMap.mp ht with ⟨line, hline, hsome⟩
  by_cases h0 : trimChars (stripComment line) = []
  · simp [minifyLine, h0] at hsome
  · simp only [minifyLine, if_neg h0] at hsome
    rcases Option.some.injEq .. ▸ hsome with rfl
    refine ⟨h0, ?_, ?_, ?_, ?_⟩
    · intro hx
      have hx' : '\n' ∈ stripComment line := mem_trimChars hx
      have hx'' : '\n' ∈ line :=
        (List.takeWhile_sublist _).subset hx'
      exact no_nl_of_mem_rustLines hline hx''
    · intro x hx
      have hx' : x ∈ stripComment line := mem_trimChars hx
      have := List.mem_takeWhile_imp hx'
      simpa using this
    · unfold trimChars at h0 ⊢
      cases hv : (stripComment line).dropWhile Char.isWhitespace with
      | nil =>
        rw [hv] at h0
        exact absurd rfl h0
      | cons c l =>
        have hc : c.isWhitespace = false := dropWhile_head_false hv
        rw [hv] at h0
        exact ⟨c, rtrim l, rtrim_cons_of_ne h0, hc⟩
    · exact rtrim_reverse_head h0

theorem minifyChars_idem (cs : List Char) :
    minifyChars (minifyChars cs) = minifyChars cs := by
  cases hps : (rustLines cs).filterMap minifyLine with
  | nil =>
    have h1 : minifyChars cs = [] := by rw [minifyChars, hps]; rfl
    rw [h1]
    rfl
  | cons p ps =>
    have hmem : ∀ t ∈ p :: ps, t ∈ (rustLines cs).filterMap minifyLine := by
      intro t ht
      rw [hps]
      exact ht
    have h1 : minifyChars cs = joinSp (p :: ps) := by rw [minifyChars, hps]
    rw [h1]
    have hhead : ∃ c l, joinSp (p :: ps) = c :: l ∧ c.isWhitespace = false :=
      joinSp_head (by simp)
        (fun t ht => (minifyLine_props (hmem t ht)).2.2.2.1)
    have hrevhead :
        ∃ c l, (joinSp (p :: ps)).reverse = c :: l ∧ c.isWhitespace = false :=
      joinSp_reverse_head (by simp)
        (fun t ht => (minifyLine_props (hmem t ht)).2.2.2.2)
    rcases hhead with ⟨c, l, hj, hc⟩
    rcases hrevhead with ⟨d, ds, hjr, hd⟩
    have hnl : '\n' ∉ joinSp (p :: ps) := by
      intro hx
      rcases mem_joinSp hx with h | ⟨t, ht, hxt⟩
      · exact absurd h (by decide)
      · exact (minifyLine_props (hmem t ht)).2.1 hxt
    have hsemi : ∀ x ∈ joinSp (p :: ps), x ≠ ';' := by
      intro x hx
      rcases mem_joinSp hx with h | ⟨t, ht, hxt⟩
      · rw [h]
        decide
      · exact (minifyLine_props (hmem t ht)).2.2.1 x hxt
    have hne : joinSp (p :: ps) ≠ [] := by
      rw [hj]
      simp
    have hstrip : stripCr (joinSp (p :: ps)) = joinSp (p :: ps) := by
      apply stripCr_eq_self
      intro rest heq
      rw [hjr] at heq
      have hdr : d = '\r' := by
        have := congrArg List.head? heq
        simpa using this
      rw [hdr] at hd
      cases hd
    have hlines : rustLines (joinSp (p :: ps)) = [joinSp (p :: ps)] := by
      simp only [rustLines, splitNl_no_nl hnl]
      rw [if_neg (by simp [hne])]
      simp [hstrip]
    have hcomment : stripComment (joinSp (p :: ps)) = joinSp (p :: ps) := by
      apply takeWhile_eq_self_of_all
      intro x hx
      simpa using hsemi x hx
    have htrim : trimChars (joinSp (p :: ps)) = joinSp (p :: ps) := by
      unfold trimChars
      have hdw : (joinSp (p :: ps)).dropWhile Char.isWhitespace
          = joinSp (p :: ps) := by
        rw [hj, List.dropWhile_cons, hc]
        simp
      rw [hdw]
      exact rtrim_eq_self hjr hd
    rw [minifyChars, hlines]
    have hml : minifyLine (joinSp (p :: ps)) = some (joinSp (p :: ps)) := by
      unfold minifyLine
      rw [hcomment, htrim, if_neg hne]
    rw [List.filterMap_cons, hml]
    rfl

/-- C7: `minify_profile` is idempotent: applying it twice gives the same
result as applying it once, for every profile string. -/
theorem minify_profile_idem (P : String) :
    minify_profile (minify_profile P) = minify_profile P :=
  congrArg String.mk (minifyChars_idem P.data)

theorem filterMap_minifyLine_eq (ll : List (List Char)) :
    ll.filterMap minifyLine =
      (ll.map (fun l => trimChars (stripComment l))).filter
        (fun l => !l.isEmpty) := by
  induction ll with
  | nil => rfl
  | cons l ls ih =>
    rw [List.filterMap_cons, List.map_cons, List.filter_cons]
    by_cases h0 : trimChars (stripComment l) = []
    · simp [minifyLine, h0, ih]
    · simp only [minifyLine, if_neg h0, ih]
      have : (!(trimChars (stripComment l)).isEmpty) = true := by
        simp [List.isEmpty_iff, h0]
      rw [if_pos this]

/-- C6: `minify_profile` implements: split into lines, truncate each line at
its first semicolon, trim surrounding whitespace, discard empty lines, join
the survivors with single spaces; on the concrete profile of the test it
yields the expected single line, and its result never contains a newline. -/
theorem minify_profile_spec :
    (∀ P : String, minify_profile P =
      String.mk (joinSp (((rustLines P.data).map
        (fun l => trimChars (stripComment l))).filter (fun l => !l.isEmpty))))
    ∧ minify_profile "; c\n(version 1)\n\n(deny default)\n; c2\n(allow file-read*)\n"
        = "(version 1) (deny default) (allow file-read*)"
    ∧ (∀ P : String, '\n' ∉ (minify_profile P).data) := by
  refine ⟨?_, by decide, ?_⟩
  · intro P
    rw [minify_profile, minifyChars, filterMap_minifyLine_eq]
  · intro P hx
    have hx' : '\n' ∈ minifyChars P.data := hx
    rcases mem_joinSp hx' with h | ⟨t, ht, hmem⟩
    · exact absurd h (by decide)
    · exact (minifyLine_props ht).2.1 hmem

end SecureNotebook
